import Mathlib

/-!
Verification development for the shannon information-estimation library
(src/shannon/continuous.py).

The embedding models ndarray sample data over the rationals, so that every
branch decision taken by the code (the data.any() truthiness test, the
determinant-zero test, the probability-sum tolerance checks, histogram
binning) is an exact, decidable comparison, while the returned entropy
values live in the reals.  Fallible code returns Except PyErr; each PyErr
constructor corresponds to one concrete failure site of the Python code.

Shape conventions follow numpy: a sample array is either one-dimensional
(NDArray.arr1) or a two-dimensional samples-by-dimensions matrix
(NDArray.arr2, a list of rows).  Real ndarrays are rectangular; theorems
about two-dimensional data carry a RectM hypothesis recording this.
-/

namespace Shannon

/-- Failure outcomes of the Python code.  Each constructor is one concrete
raise site (or numpy-internal failure) of continuous.py; the constructor
unsupportedMethod is part of the error taxonomy of the specification and is
never produced by the code. -/
inductive PyErr
  | invalidArgumentNeither
  | invalidArgumentBoth
  | probNormalization
  | attributeErrorNoneAny
  | nameErrorUnbound
  | linAlgError
  | invalidArgumentProbOrBins
  | indexErrorShape
  | typeErrorLenNone
  | dimensionMismatch
  | valueErrorBins
  | valueErrorEmptyData
  | numpyRaggedError
  | numpyBroadcastError
  | valueErrorTruthAmbiguous
  | normalizationError
  | numpyTypeError
  | concatDimError
  | axisError
  | typeErrorNoneArith
  | unsupportedMethod
  deriving DecidableEq

/-- Possible Python return values of the entropy functions: a finite float
(modelled as a real), the IEEE infinities, IEEE nan, or the Python value
None (the implicit return of a fall-through). -/
inductive PyVal
  | num (r : ℝ)
  | negInf
  | posInf
  | nan
  | pyNone

/-- A numpy array argument: one-dimensional, or two-dimensional given as a
list of rows. -/
inductive NDArray
  | arr1 (v : List ℚ)
  | arr2 (m : List (List ℚ))

/-- Two-dimensional sample data: a list of rows. -/
abbrev Mat := List (List ℚ)

/-- Column count of a two-dimensional array (length of the first row; real
ndarrays are rectangular, recorded by RectM in theorems). -/
def widthM (m : Mat) : ℕ := (m.headD []).length

/-- Rectangularity of a list-of-rows matrix: every row has the width of the
first row.  Actual ndarrays satisfy this by construction. -/
def RectM (m : Mat) : Prop := ∀ r ∈ m, r.length = widthM m

instance (m : Mat) : Decidable (RectM m) := by
  unfold RectM; infer_instance

/-- numpy ndarray.any() for a row: is some entry nonzero. -/
def npAnyRow (v : List ℚ) : Bool := v.any (fun q => decide (q ≠ 0))

/-- numpy ndarray.any() for a two-dimensional array. -/
def npAnyM (m : Mat) : Bool := m.any npAnyRow

/-- numpy ndarray.any() (line 52 of continuous.py). -/
def npAny : NDArray → Bool
  | .arr1 v => npAnyRow v
  | .arr2 m => npAnyM m

/-- Number of samples, data.shape[0] (line 53). -/
def numSamplesOf : NDArray → ℕ
  | .arr1 v => v.length
  | .arr2 m => m.length

/-- Number of dimensions: 1 for one-dimensional data, data.shape[1]
otherwise (lines 54-57). -/
def numDimsOf : NDArray → ℕ
  | .arr1 _ => 1
  | .arr2 m => widthM m

/-- The reshape performed inside getrho (lines 68-69): one-dimensional data
becomes a single-column matrix. -/
def reshapeRows : NDArray → Mat
  | .arr1 v => v.map (fun q => [q])
  | .arr2 m => m

/-- Minimum of a list of reals (np.min along an axis; numpy never sees an
empty slice in the reachable paths, the empty default is arbitrary). -/
def listMinR : List ℝ → ℝ
  | [] => 0
  | a :: t => t.foldl min a

/-- Maximum of a list of reals (np.max of the distance matrix). -/
def listMaxR : List ℝ → ℝ
  | [] => 0
  | a :: t => t.foldl max a

/-- Squared Euclidean distance between two rows of rational samples. -/
def sqDistQ (a b : List ℚ) : ℚ := (List.zipWith (fun p q => (p - q) ^ 2) a b).sum

/-- Euclidean distance between two rows (pdist metric euclidean). -/
noncomputable def euclidD (a b : List ℚ) : ℝ := Real.sqrt ((sqDistQ a b : ℚ) : ℝ)

/-- Entry (i, j) of the squareform pairwise-distance matrix D (line 70). -/
noncomputable def distRow (m : Mat) (i j : ℕ) : ℝ := euclidD (m.getD i []) (m.getD j [])

/-- All entries of the pairwise-distance matrix, for np.max(D) (line 71). -/
noncomputable def allDists (m : Mat) : List ℝ :=
  (List.range m.length).flatMap (fun i => (List.range m.length).map (fun j => distRow m i j))

/-- The vector rho of getrho (lines 70-72): the distance matrix with its
diagonal inflated by np.max(D)*np.eye, then the minimum along axis 0
(for each column j, the minimum over rows i). -/
noncomputable def rhoList (m : Mat) : List ℝ :=
  (List.range m.length).map (fun j =>
    listMinR ((List.range m.length).map (fun i =>
      distRow m i j + (if i = j then listMaxR (allDists m) else 0))))

/-- getrho (lines 63-72): reshape one-dimensional input to a single column,
then take nearest-neighbor distances. -/
noncomputable def getrho (d : NDArray) : List ℝ := rhoList (reshapeRows d)

/-- Base-2 logarithm, np.log2, exact for positive arguments.  np.log2(0)
is the float -inf, which Real.logb does not represent, so the two places
the code can hit it are modelled explicitly: the bin branch replaces those
-inf entries by 0 (see binEntropy), and the nearest-neighbors branch
returns the float -inf whenever a nearest-neighbor distance is 0 (see
entropyData). -/
noncomputable def log2R (x : ℝ) : ℝ := Real.logb 2 x

/-- np.mean of a list of reals. -/
noncomputable def meanR (l : List ℝ) : ℝ := l.sum / l.length

/-- The volume constant A_k = k*pi^(k/2)/Gamma(k/2+1) (line 82). -/
noncomputable def Ak (k : ℕ) : ℝ :=
  ((k : ℝ) * Real.pi ^ ((k : ℝ) / 2)) / Real.Gamma ((k : ℝ) / 2 + 1)

/-- The Euler-Mascheroni constant; np.euler_gamma is its double-precision
approximation. -/
noncomputable def eulerGammaR : ℝ := Real.eulerMascheroniConstant

/-- The nearest-neighbors return value (line 86):
k*mean(log2(rho)) + log2(num_samples*Ak/k) + log2(e)*euler_gamma. -/
noncomputable def nnVal (numSamples k : ℕ) (rho : List ℝ) : ℝ :=
  (k : ℝ) * meanR (rho.map log2R) + log2R ((numSamples : ℝ) * Ak k / (k : ℝ)) +
    log2R (Real.exp 1) * eulerGammaR

/-- Dot product of two rows, an entry of data.dot(data.transpose()). -/
def dotQ (a b : List ℚ) : ℚ := (List.zipWith (· * ·) a b).sum

/-- The Gram matrix data.dot(data.transpose()) of given size; entry (i, j)
is the dot product of rows i and j. -/
def gramFin (n : ℕ) (m : Mat) : Matrix (Fin n) (Fin n) ℚ :=
  Matrix.of fun i j => dotQ (m.getD i []) (m.getD j [])

/-- detCov = det(data.dot(data.transpose())) (line 94), exact rational
arithmetic standing for the float computation. -/
def gramDet (m : Mat) : ℚ := (gramFin m.length m).det

/-- The gaussian-method return value for a nonsingular covariance
determinant (lines 95-100): 0.5*log((2*pi*e)^num_dimensions * detCov). -/
noncomputable def gaussVal (numDims : ℕ) (detCov : ℚ) : ℝ :=
  1 / 2 * Real.log ((2 * Real.pi * Real.exp 1) ^ numDims * (detCov : ℝ))

/-- A bin specification for one dimension: a bin count, or explicit bin
edges (docstring lines 21-22). -/
inductive BinSpec
  | count (n : ℕ)
  | edgesGiven (es : List ℚ)

/-- A flattened numpy array: row-major flat data together with its shape. -/
structure NDArr where
  shape : List ℕ
  flat : List ℚ

/-- Column j of the sample matrix. -/
def colOf (m : Mat) (j : ℕ) : List ℚ := m.map (fun r => r.getD j 0)

/-- Minimum of a rational list (np.min of a column, used for integer bin
counts; data is nonempty on this path). -/
def qMin : List ℚ → ℚ
  | [] => 0
  | a :: t => t.foldl min a

/-- Maximum of a rational list. -/
def qMax : List ℚ → ℚ
  | [] => 0
  | a :: t => t.foldl max a

/-- Equally spaced bin edges over an interval, np.linspace(lo, hi, n+1). -/
def linspaceQ (lo hi : ℚ) (n : ℕ) : List ℚ :=
  (List.range (n + 1)).map (fun j => lo + (hi - lo) * j / n)

/-- Resolve the bin specification of dimension j into explicit edges, as
np.histogramdd does: an integer count becomes equally spaced edges over the
observed range of that column (raising for a nonpositive count or empty
data), explicit edges are used as given. -/
def resolveBin (m : Mat) (j : ℕ) : BinSpec → Except PyErr (List ℚ)
  | .count n =>
      if n = 0 then .error .valueErrorBins
      else if m.length = 0 then .error .valueErrorEmptyData
      else .ok (linspaceQ (qMin (colOf m j)) (qMax (colOf m j)) n)
  | .edgesGiven es => .ok es

/-- Resolve every dimension of the bin specification (dimension index
threaded through). -/
def resolveBins (m : Mat) (j : ℕ) : List BinSpec → Except PyErr (List (List ℚ))
  | [] => .ok []
  | b :: bs =>
      match resolveBin m j b with
      | .error e => .error e
      | .ok es =>
          match resolveBins m (j + 1) bs with
          | .error e => .error e
          | .ok rest => .ok (es :: rest)

/-- Bin index of a scalar for given edges, following np.histogramdd:
x lands in bin i when edges[i] <= x < edges[i+1], the last bin is closed on
the right, and values outside the outermost edges are dropped. -/
def binIdx (es : List ℚ) (x : ℚ) : Option ℕ :=
  match es with
  | [] => none
  | [_] => none
  | e0 :: rest =>
      if x < e0 ∨ (e0 :: rest).getLastD 0 < x then none
      else some (((e0 :: rest).dropLast.filter (fun e => e ≤ x)).length - 1)

/-- Multi-dimensional bin index of one sample row, one index per dimension;
none when some coordinate falls outside its edges. -/
def rowIdx (edges : List (List ℚ)) (r : List ℚ) : Option (List ℕ) :=
  match edges with
  | [] => some []
  | es :: rest =>
      match binIdx es (r.headD 0), rowIdx rest (r.tail) with
      | some i, some t => some (i :: t)
      | _, _ => none

/-- All multi-indices of a histogram of the given per-dimension bin counts,
in row-major order. -/
def multiIndices : List ℕ → List (List ℕ)
  | [] => [[]]
  | b :: t => (List.range b).flatMap (fun i => (multiIndices t).map (fun idx => i :: idx))

/-- Volume of the histogram cell at a multi-index: the product of the
per-dimension edge gaps. -/
def cellVol (edges : List (List ℚ)) (idx : List ℕ) : ℚ :=
  (List.zipWith (fun es i => es.getD (i + 1) 0 - es.getD i 0) edges idx).prod

/-- The normed=True histogram value at one cell: the count of samples in
the cell divided by (number of samples times cell volume), a probability
density rather than a probability mass. -/
def cellDensity (m : Mat) (edges : List (List ℚ)) (idx : List ℕ) : ℚ :=
  ((m.filter (fun r => rowIdx edges r = some idx)).length : ℚ) /
    ((m.length : ℚ) * cellVol edges idx)

/-- np.histogramdd(data, bins, normed=True) (line 136): the pair of the
normalized histogram array and the list of per-dimension edge arrays.
Edge monotonicity validation is omitted; it only adds further error paths. -/
def histogramdd (m : Mat) (bs : List BinSpec) : Except PyErr (NDArr × List (List ℚ)) :=
  match resolveBins m 0 bs with
  | .error e => .error e
  | .ok edges =>
      .ok (⟨edges.map (fun es => es.length - 1),
            (multiIndices (edges.map (fun es => es.length - 1))).map (cellDensity m edges)⟩,
           edges)

/-- Broadcast two shapes given with trailing dimensions first, following
the numpy rule: equal extents or an extent of 1 are compatible. -/
def bcastRev : List ℕ → List ℕ → Option (List ℕ)
  | [], ys => some ys
  | x :: xs, [] => some (x :: xs)
  | x :: xs, y :: ys =>
      match bcastRev xs ys with
      | none => none
      | some t =>
          if x = y then some (x :: t)
          else if x = 1 then some (y :: t)
          else if y = 1 then some (x :: t)
          else none

/-- numpy broadcasting of two shapes, aligning trailing dimensions. -/
def broadcastShape (a b : List ℕ) : Option (List ℕ) :=
  (bcastRev a.reverse b.reverse).map List.reverse

/-- The Python expression sum(prob) of line 138, where prob is the
(histogram, edges) tuple returned by np.histogramdd: the builtin sum adds
the histogram array and np.array(edges) elementwise.  A ragged edges list
does not form a rectangular array, incompatible shapes fail to broadcast,
and using a multi-element comparison result as a truth value is ambiguous;
each failure is one numpy error.  The scalar case adds the single elements
of two all-ones-shaped operands. -/
def npTupleSum (h : NDArr) (edges : List (List ℚ)) (tol : ℚ) : Except PyErr Bool :=
  match edges with
  | [] =>
      match broadcastShape h.shape [0] with
      | none => .error .numpyBroadcastError
      | some s =>
          if s.prod = 1 then .ok (|h.flat.headD 0 + 0 - 1| > tol)
          else .error .valueErrorTruthAmbiguous
  | e0 :: rest =>
      if (e0 :: rest).all (fun es => es.length = e0.length) then
        match broadcastShape h.shape [(e0 :: rest).length, e0.length] with
        | none => .error .numpyBroadcastError
        | some s =>
            if s.prod = 1 then .ok (|h.flat.headD 0 + e0.headD 0 - 1| > tol)
            else .error .valueErrorTruthAmbiguous
      else .error .numpyRaggedError

/-- symbols_to_prob (lines 118-141): dimensionality check against
data.shape[1], np.histogramdd with normed=True, then the sum(prob) check of
line 138 applied to the returned (histogram, edges) tuple. -/
def symbols_to_prob (data : NDArray) (bins : Option (List BinSpec)) (tol : ℚ) :
    Except PyErr (NDArr × List (List ℚ)) :=
  match data with
  | .arr1 _ => .error .indexErrorShape
  | .arr2 m =>
      match bins with
      | none => .error .typeErrorLenNone
      | some bs =>
          if bs.length ≠ widthM m then .error .dimensionMismatch
          else
            match histogramdd m bs with
            | .error e => .error e
            | .ok (h, edges) =>
                match npTupleSum h edges tol with
                | .error e => .error e
                | .ok tooFar =>
                    if tooFar then .error .normalizationError
                    else .ok (h, edges)

/-- The discrete-entropy computation of lines 109-115 applied to a vector
of probabilities: -sum(p*log2(p)) with any log2(p) = -inf (that is, p = 0)
replaced by 0 before the product. -/
noncomputable def binEntropy (p : List ℚ) : ℝ :=
  -(p.map (fun q => (q : ℝ) * (if q = 0 then 0 else log2R q))).sum

open scoped Classical

/-- entropy dispatch once data is present (lines 52-115).  The locals
num_samples and num_dimensions are bound only when data.any() is true
(line 52); using them unbound raises NameError.  The data-is-None re-checks
inside the branches (lines 74-75 and 91-92) are unreachable, since a None
data already raised at line 52.  In the nearest-neighbors branch, a
nearest-neighbor distance of 0 (a lone sample, or duplicate rows) makes
np.log2(rho) contain the float -inf, which propagates through
k*np.mean(...) plus the finite remaining terms (k >= 1 and the log2
argument of line 86 is positive and finite) to a returned float -inf;
otherwise every rho entry is positive and the returned float is finite.
This case split on the value of rho is float arithmetic in the source, not
a branch, so it is modelled with a classical conditional. -/
noncomputable def entropyData (d : NDArray) (method : String) (bins : Option (List BinSpec)) :
    Except PyErr PyVal :=
  let binfo : Option (ℕ × ℕ) := if npAny d then some (numSamplesOf d, numDimsOf d) else none
  if method = "nearest-neighbors" then
    match d with
    | .arr2 m =>
        match binfo with
        | none => .error .nameErrorUnbound
        | some (n, k) =>
            if 0 ∈ getrho (.arr2 m) then .ok .negInf
            else .ok (.num (nnVal n k (getrho (.arr2 m))))
    | .arr1 v =>
        match binfo with
        | none => .error .nameErrorUnbound
        | some (n, _) =>
            if 0 ∈ getrho (.arr1 v) then .ok .negInf
            else .ok (.num (nnVal n 1 (getrho (.arr1 v))))
  else if method = "gaussian" then
    match d with
    | .arr1 _ => .error .linAlgError
    | .arr2 m =>
        match binfo with
        | none => .error .nameErrorUnbound
        | some (_, dd) =>
            if gramDet m = 0 then .ok .negInf
            else .ok (.num (gaussVal dd (gramDet m)))
  else if method = "bin" then
    match bins with
    | none => .error .invalidArgumentProbOrBins
    | some bs =>
        match symbols_to_prob d (some bs) (1 / 10000) with
        | .error e => .error e
        | .ok _ => .error .numpyTypeError
  else .ok .pyNone

/-- entropy (lines 8-115).  Argument validation in source order: both of
data and prob absent (line 40), both present (line 43), the probability
sum tolerance (line 49), and the unguarded data.any() of line 52, which
raises AttributeError whenever data is None, making every prob-only call
fail.  The method branches run only with data present. -/
noncomputable def entropy (data : Option NDArray) (prob : Option (List ℚ)) (method : String)
    (bins : Option (List BinSpec)) (errorVal : ℚ) : Except PyErr PyVal :=
  match prob, data with
  | none, none => .error .invalidArgumentNeither
  | some _, some _ => .error .invalidArgumentBoth
  | some p, none =>
      if |p.sum - 1| > errorVal then .error .probNormalization
      else .error .attributeErrorNoneAny
  | none, some d => entropyData d method bins

/-- Python float addition on entropy results, covering the IEEE special
values and the TypeError raised when an operand is the Python value None. -/
def pyAdd : PyVal → PyVal → Except PyErr PyVal
  | .pyNone, _ => .error .typeErrorNoneArith
  | _, .pyNone => .error .typeErrorNoneArith
  | .nan, _ => .ok .nan
  | _, .nan => .ok .nan
  | .num a, .num b => .ok (.num (a + b))
  | .num _, .negInf => .ok .negInf
  | .negInf, .num _ => .ok .negInf
  | .negInf, .negInf => .ok .negInf
  | .num _, .posInf => .ok .posInf
  | .posInf, .num _ => .ok .posInf
  | .posInf, .posInf => .ok .posInf
  | .posInf, .negInf => .ok .nan
  | .negInf, .posInf => .ok .nan

/-- Python float subtraction on entropy results. -/
def pySub : PyVal → PyVal → Except PyErr PyVal
  | .pyNone, _ => .error .typeErrorNoneArith
  | _, .pyNone => .error .typeErrorNoneArith
  | .nan, _ => .ok .nan
  | _, .nan => .ok .nan
  | .num a, .num b => .ok (.num (a - b))
  | .num _, .negInf => .ok .posInf
  | .negInf, .num _ => .ok .negInf
  | .negInf, .negInf => .ok .nan
  | .num _, .posInf => .ok .negInf
  | .posInf, .num _ => .ok .posInf
  | .posInf, .posInf => .ok .nan
  | .posInf, .negInf => .ok .posInf
  | .negInf, .posInf => .ok .negInf

/-- The reshape of mi (lines 176-183): one-dimensional input becomes a
single-column matrix via np.expand_dims. -/
def reshapeCol : NDArray → Mat
  | .arr1 v => v.map (fun q => [q])
  | .arr2 m => m

/-- np.concatenate([x, y], axis=1) on two matrices: rows are joined
pairwise; mismatched row counts raise. -/
def concatCols (a b : Mat) : Except PyErr Mat :=
  if a.length = b.length then .ok (List.zipWith (· ++ ·) a b) else .error .concatDimError

/-- mi (lines 144-189): H(X) with bins_x, H(Y) with bins_y, H(X,Y) on the
column-wise concatenation with bins_xy, all under the same method and the
default errorVal, returning HX + HY - HXY.  The zip-to-list conversion of
lines 167-173 is Python dynamism outside this typed model, and the
try/except around the reshape of lines 176-183 never fires for array
inputs. -/
noncomputable def mi (x y : NDArray) (binsX binsY binsXY : Option (List BinSpec))
    (method : String) : Except PyErr PyVal :=
  let x2 := reshapeCol x
  let y2 := reshapeCol y
  match entropy (some (.arr2 x2)) none method binsX (1 / 100000) with
  | .error e => .error e
  | .ok hx =>
      match entropy (some (.arr2 y2)) none method binsY (1 / 100000) with
      | .error e => .error e
      | .ok hy =>
          match concatCols x2 y2 with
          | .error e => .error e
          | .ok xy =>
              match entropy (some (.arr2 xy)) none method binsXY (1 / 100000) with
              | .error e => .error e
              | .ok hxy =>
                  match pyAdd hx hy with
                  | .error e => .error e
                  | .ok s => pySub s hxy

/-- np.concatenate([x, y], axis=1) on raw arguments (line 199): a
one-dimensional operand has no axis 1 and raises. -/
def concatNd (x y : NDArray) : Except PyErr Mat :=
  match x, y with
  | .arr2 a, .arr2 b => concatCols a b
  | _, _ => .error .axisError

/-- cond_entropy (lines 192-202): H(X,Y) on the concatenation with
bins_xy, then H(Y) with bins_y, same method, returning HXY - HY.  Unlike
mi, no reshape of one-dimensional inputs is performed. -/
noncomputable def cond_entropy (x y : NDArray) (binsY binsXY : Option (List BinSpec))
    (method : String) : Except PyErr PyVal :=
  match concatNd x y with
  | .error e => .error e
  | .ok xy =>
      match entropy (some (.arr2 xy)) none method binsXY (1 / 100000) with
      | .error e => .error e
      | .ok hxy =>
          match entropy (some y) none method binsY (1 / 100000) with
          | .error e => .error e
          | .ok hy => pySub hxy hy

/-! Helper lemmas about the embedded operations. -/

lemma gramDet_one (a : List ℚ) : gramDet [a] = dotQ a a := Matrix.det_fin_one _

lemma gramDet_two (a b : List ℚ) :
    gramDet [a, b] = dotQ a a * dotQ b b - dotQ a b * dotQ b a := Matrix.det_fin_two _

lemma foldl_min_le_init (t : List ℝ) (a : ℝ) : t.foldl min a ≤ a := by
  induction t generalizing a with
  | nil => simp
  | cons x xs ih => exact le_trans (ih (min a x)) (min_le_left a x)

lemma foldl_min_le_mem (t : List ℝ) (a x : ℝ) (hx : x ∈ t) : t.foldl min a ≤ x := by
  induction t generalizing a with
  | nil => cases hx
  | cons y ys ih =>
      rcases List.mem_cons.mp hx with h | h
      · subst h
        exact le_trans (foldl_min_le_init ys (min a x)) (min_le_right a x)
      · exact ih (min a y) h

lemma foldl_min_mem_or (t : List ℝ) (a : ℝ) : t.foldl min a = a ∨ t.foldl min a ∈ t := by
  induction t generalizing a with
  | nil => left; rfl
  | cons y ys ih =>
      rcases ih (min a y) with h | h
      · rcases min_cases a y with ⟨he, _⟩ | ⟨he, _⟩
        · left; simpa [he] using h
        · right; simp only [List.foldl_cons] at *
          rw [h, he]; exact List.mem_cons_self _ _
      · right; exact List.mem_cons_of_mem _ h

lemma listMinR_le (l : List ℝ) (x : ℝ) (hx : x ∈ l) : listMinR l ≤ x := by
  cases l with
  | nil => cases hx
  | cons a t =>
      rcases List.mem_cons.mp hx with h | h
      · subst h; exact foldl_min_le_init t x
      · exact foldl_min_le_mem t a x h

lemma listMinR_mem (l : List ℝ) (hl : l ≠ []) : listMinR l ∈ l := by
  cases l with
  | nil => exact absurd rfl hl
  | cons a t =>
      rcases foldl_min_mem_or t a with h | h
      · rw [listMinR, h]; exact List.mem_cons_self _ _
      · exact List.mem_cons_of_mem _ h

lemma foldl_max_init_le (t : List ℝ) (a : ℝ) : a ≤ t.foldl max a := by
  induction t generalizing a with
  | nil => simp
  | cons x xs ih => exact le_trans (le_max_left a x) (ih (max a x))

lemma mem_le_foldl_max (t : List ℝ) (a x : ℝ) (hx : x ∈ t) : x ≤ t.foldl max a := by
  induction t generalizing a with
  | nil => cases hx
  | cons y ys ih =>
      rcases List.mem_cons.mp hx with h | h
      · subst h
        exact le_trans (le_max_right a x) (foldl_max_init_le ys (max a x))
      · exact ih (max a y) h

lemma le_listMaxR (l : List ℝ) (x : ℝ) (hx : x ∈ l) : x ≤ listMaxR l := by
  cases l with
  | nil => cases hx
  | cons a t =>
      rcases List.mem_cons.mp hx with h | h
      · subst h; exact foldl_max_init_le t x
      · exact mem_le_foldl_max t a x h

lemma sqDistQ_self (a : List ℚ) : sqDistQ a a = 0 := by
  unfold sqDistQ
  induction a with
  | nil => simp
  | cons x xs ih => simp [ih]

lemma distRow_self (m : Mat) (j : ℕ) : distRow m j j = 0 := by
  unfold distRow euclidD
  rw [sqDistQ_self]
  simp

lemma sqDistQ_append (a b c d : List ℚ) (h : a.length = c.length) :
    sqDistQ (a ++ b) (c ++ d) = sqDistQ a c + sqDistQ b d := by
  unfold sqDistQ
  rw [List.zipWith_append _ _ _ _ _ h, List.sum_append]

lemma dotQ_nil_left (b : List ℚ) : dotQ [] b = 0 := rfl

lemma dotQ_nil_right (a : List ℚ) : dotQ a [] = 0 := by
  cases a <;> rfl

lemma dotQ_append (a b c d : List ℚ) (h : a.length = c.length) :
    dotQ (a ++ b) (c ++ d) = dotQ a c + dotQ b d := by
  unfold dotQ
  rw [List.zipWith_append _ _ _ _ _ h, List.sum_append]

lemma pyAdd_comm (a b : PyVal) : pyAdd a b = pyAdd b a := by
  cases a <;> cases b <;> simp [pyAdd, add_comm]

lemma getD_mem_of_lt {α : Type} (l : List α) (i : ℕ) (d : α) (h : i < l.length) :
    l.getD i d ∈ l := by
  rw [List.getD_eq_getElem l d h]
  exact List.getElem_mem h

lemma getD_map_range {α : Type} (n : ℕ) (f : ℕ → α) (j : ℕ) (hj : j < n) (d : α) :
    ((List.range n).map f).getD j d = f j := by
  rw [List.getD_eq_getElem?_getD]
  simp [List.getElem?_map, List.getElem?_range, hj]

lemma getD_concat (x y : Mat) (h : x.length = y.length) (i : ℕ) :
    (List.zipWith (· ++ ·) x y).getD i [] = x.getD i [] ++ y.getD i [] := by
  induction x generalizing y i with
  | nil =>
      cases y with
      | nil => simp
      | cons b ys => simp at h
  | cons a xs ih =>
      cases y with
      | nil => simp at h
      | cons b ys =>
          cases i with
          | zero => simp
          | succ k =>
              simp only [List.zipWith_cons_cons, List.getD_cons_succ]
              exact ih ys (by simpa using h) k

lemma npAnyRow_append (a b : List ℚ) : npAnyRow (a ++ b) = (npAnyRow a || npAnyRow b) := by
  simp [npAnyRow]

lemma npAnyM_concat (x y : Mat) (h : x.length = y.length) :
    npAnyM (List.zipWith (· ++ ·) x y) = (npAnyM x || npAnyM y) := by
  induction x generalizing y with
  | nil =>
      cases y with
      | nil => simp [npAnyM]
      | cons b ys => simp at h
  | cons a xs ih =>
      cases y with
      | nil => simp at h
      | cons b ys =>
          simp only [List.zipWith_cons_cons, npAnyM, List.any_cons, npAnyRow_append]
          have := ih ys (by simpa using h)
          simp only [npAnyM] at this
          rw [this]
          cases npAnyRow a <;> cases npAnyRow b <;>
            cases xs.any npAnyRow <;> cases ys.any npAnyRow <;> rfl

lemma npAnyM_ne_nil (x : Mat) (h : npAnyM x = true) : x ≠ [] := by
  intro he
  subst he
  simp [npAnyM] at h

lemma widthM_concat (x y : Mat) (hx : x ≠ []) (hy : y ≠ []) :
    widthM (List.zipWith (· ++ ·) x y) = widthM x + widthM y := by
  cases x with
  | nil => exact absurd rfl hx
  | cons a xs =>
      cases y with
      | nil => exact absurd rfl hy
      | cons b ys => simp [widthM]

lemma length_concat_comm (x y : Mat) :
    (List.zipWith (· ++ ·) x y).length = (List.zipWith (· ++ ·) y x).length := by
  simp [List.length_zipWith, Nat.min_comm]

lemma rowlen_of_rect (x : Mat) (hx : RectM x) (i : ℕ) (hi : i < x.length) :
    (x.getD i []).length = widthM x :=
  hx _ (getD_mem_of_lt x i [] hi)

lemma distRow_concat_swap (x y : Mat) (hx : RectM x) (hy : RectM y) (h : x.length = y.length)
    (i j : ℕ) (hi : i < x.length) (hj : j < x.length) :
    distRow (List.zipWith (· ++ ·) x y) i j = distRow (List.zipWith (· ++ ·) y x) i j := by
  unfold distRow euclidD
  rw [getD_concat x y h, getD_concat x y h, getD_concat y x h.symm, getD_concat y x h.symm]
  rw [sqDistQ_append _ _ _ _ ((rowlen_of_rect x hx i hi).trans (rowlen_of_rect x hx j hj).symm),
    sqDistQ_append _ _ _ _
      ((rowlen_of_rect y hy i (h ▸ hi)).trans (rowlen_of_rect y hy j (h ▸ hj)).symm)]
  rw [add_comm]

lemma flatMap_congr {α β : Type} (l : List α) (f g : α → List β) (h : ∀ a ∈ l, f a = g a) :
    l.flatMap f = l.flatMap g := by
  induction l with
  | nil => rfl
  | cons a t ih =>
      simp only [List.flatMap_cons]
      rw [h a (List.mem_cons_self a t), ih (fun b hb => h b (List.mem_cons_of_mem a hb))]

lemma rhoList_concat_swap (x y : Mat) (hx : RectM x) (hy : RectM y) (h : x.length = y.length) :
    rhoList (List.zipWith (· ++ ·) x y) = rhoList (List.zipWith (· ++ ·) y x) := by
  have hlen : (List.zipWith (· ++ ·) x y).length = x.length := by
    simp [List.length_zipWith, h]
  have hlen' : (List.zipWith (· ++ ·) y x).length = x.length := by
    simp [List.length_zipWith, h]
  have hd : ∀ i j, i < x.length → j < x.length →
      distRow (List.zipWith (· ++ ·) x y) i j = distRow (List.zipWith (· ++ ·) y x) i j :=
    fun i j hi hj => distRow_concat_swap x y hx hy h i j hi hj
  have hall : allDists (List.zipWith (· ++ ·) x y) = allDists (List.zipWith (· ++ ·) y x) := by
    unfold allDists
    rw [hlen, hlen']
    apply flatMap_congr
    intro i hi
    apply List.map_congr_left
    intro j hj
    exact hd i j (List.mem_range.mp hi) (List.mem_range.mp hj)
  unfold rhoList
  rw [hlen, hlen', hall]
  apply List.map_congr_left
  intro j hj
  congr 1
  apply List.map_congr_left
  intro i hi
  rw [hd i j (List.mem_range.mp hi) (List.mem_range.mp hj)]

lemma gram_entry_concat_swap (x y : Mat) (hx : RectM x) (hy : RectM y)
    (h : x.length = y.length) (i j : ℕ) :
    dotQ ((List.zipWith (· ++ ·) x y).getD i []) ((List.zipWith (· ++ ·) x y).getD j []) =
      dotQ ((List.zipWith (· ++ ·) y x).getD i []) ((List.zipWith (· ++ ·) y x).getD j []) := by
  rw [getD_concat x y h, getD_concat x y h, getD_concat y x h.symm, getD_concat y x h.symm]
  by_cases hi : i < x.length
  · by_cases hj : j < x.length
    · rw [dotQ_append _ _ _ _ ((rowlen_of_rect x hx i hi).trans (rowlen_of_rect x hx j hj).symm),
        dotQ_append _ _ _ _
          ((rowlen_of_rect y hy i (h ▸ hi)).trans (rowlen_of_rect y hy j (h ▸ hj)).symm)]
      exact add_comm _ _
    · rw [List.getD_eq_default _ _ (Nat.le_of_not_lt hj),
        List.getD_eq_default _ _ (show y.length ≤ j by rw [← h]; exact Nat.le_of_not_lt hj)]
      simp [dotQ_nil_right]
  · rw [List.getD_eq_default _ _ (Nat.le_of_not_lt hi),
      List.getD_eq_default _ _ (show y.length ≤ i by rw [← h]; exact Nat.le_of_not_lt hi)]
    simp [dotQ_nil_left]

lemma gramDet_concat_swap (x y : Mat) (hx : RectM x) (hy : RectM y) (h : x.length = y.length) :
    gramDet (List.zipWith (· ++ ·) x y) = gramDet (List.zipWith (· ++ ·) y x) := by
  unfold gramDet
  rw [← length_concat_comm x y]
  congr 1
  ext i j
  exact gram_entry_concat_swap x y hx hy h i.val j.val

lemma entropy_some_eq (d : NDArray) (method : String) (bins : Option (List BinSpec)) (ev : ℚ) :
    entropy (some d) none method bins ev = entropyData d method bins := rfl

lemma entropyData_nn_any (m : Mat) (h : npAnyM m = true) (bins : Option (List BinSpec)) :
    entropyData (.arr2 m) "nearest-neighbors" bins =
      if 0 ∈ rhoList m then .ok .negInf
      else .ok (.num (nnVal m.length (widthM m) (rhoList m))) := by
  simp [entropyData, npAny, h, numSamplesOf, numDimsOf, getrho, reshapeRows]

lemma entropyData_nn_unbound (m : Mat) (h : npAnyM m = false) (bins : Option (List BinSpec)) :
    entropyData (.arr2 m) "nearest-neighbors" bins = .error .nameErrorUnbound := by
  simp [entropyData, npAny, h]

lemma entropyData_gauss_any (m : Mat) (h : npAnyM m = true) (bins : Option (List BinSpec)) :
    entropyData (.arr2 m) "gaussian" bins =
      if gramDet m = 0 then .ok .negInf else .ok (.num (gaussVal (widthM m) (gramDet m))) := by
  simp [entropyData, npAny, h, numSamplesOf, numDimsOf]

lemma entropyData_gauss_unbound (m : Mat) (h : npAnyM m = false) (bins : Option (List BinSpec)) :
    entropyData (.arr2 m) "gaussian" bins = .error .nameErrorUnbound := by
  simp [entropyData, npAny, h]

lemma entropyData_bin_err (d : NDArray) (bins : Option (List BinSpec)) :
    ∃ e, entropyData d "bin" bins = .error e := by
  cases bins with
  | none => exact ⟨.invalidArgumentProbOrBins, by simp [entropyData]⟩
  | some bs =>
      cases h : symbols_to_prob d (some bs) ((10000 : ℚ)⁻¹) with
      | error e => exact ⟨e, by simp [entropyData, h]⟩
      | ok v => exact ⟨.numpyTypeError, by simp [entropyData, h]⟩

lemma entropyData_other (d : NDArray) (bins : Option (List BinSpec)) (method : String)
    (h1 : method ≠ "nearest-neighbors") (h2 : method ≠ "gaussian") (h3 : method ≠ "bin") :
    entropyData d method bins = .ok .pyNone := by
  simp [entropyData, h1, h2, h3]

lemma dotQ_eq_sum (D : ℕ) (a b : List ℚ) (ha : a.length = D) (hb : b.length = D) :
    dotQ a b = ∑ k : Fin D, a.getD k 0 * b.getD k 0 := by
  induction D generalizing a b with
  | zero =>
      have ha0 : a = [] := List.length_eq_zero.mp ha
      have hb0 : b = [] := List.length_eq_zero.mp hb
      subst ha0; subst hb0
      simp [dotQ]
  | succ n ih =>
      cases a with
      | nil => simp at ha
      | cons p a2 =>
          cases b with
          | nil => simp at hb
          | cons q b2 =>
              rw [Fin.sum_univ_succ]
              simp only [Fin.val_zero, List.getD_cons_zero, Fin.val_succ, List.getD_cons_succ]
              rw [show dotQ (p :: a2) (q :: b2) = p * q + dotQ a2 b2 by
                simp [dotQ]]
              rw [ih a2 b2 (by simpa using ha) (by simpa using hb)]

lemma gramFin_eq_mul_transpose (m : Mat) (hR : RectM m) :
    gramFin m.length m =
      (Matrix.of fun (i : Fin m.length) (j : Fin (widthM m)) => (m.getD i []).getD j 0) *
        (Matrix.of fun (i : Fin m.length) (j : Fin (widthM m)) => (m.getD i []).getD j 0).transpose := by
  ext i j
  rw [Matrix.mul_apply]
  simp only [gramFin, Matrix.of_apply, Matrix.transpose_apply]
  exact dotQ_eq_sum (widthM m) _ _ (rowlen_of_rect m hR i i.isLt) (rowlen_of_rect m hR j j.isLt)

lemma gramDet_eq_zero_of_width_lt (m : Mat) (hR : RectM m) (h : widthM m < m.length) :
    gramDet m = 0 := by
  classical
  have hni :
      ¬ Function.Injective (Matrix.mulVecLin
        (Matrix.of fun (i : Fin m.length) (j : Fin (widthM m)) => (m.getD i []).getD j 0).transpose) := by
    intro hinj
    have hle := LinearMap.finrank_le_finrank_of_injective hinj
    rw [Module.finrank_fin_fun, Module.finrank_fin_fun] at hle
    omega
  obtain ⟨u, w, huw, hne⟩ := Function.not_injective_iff.mp hni
  refine Matrix.exists_mulVec_eq_zero_iff.mp ⟨u - w, sub_ne_zero_of_ne hne, ?_⟩
  rw [gramFin_eq_mul_transpose m hR, ← Matrix.mulVec_mulVec]
  simp only [Matrix.mulVecLin_apply] at huw
  rw [Matrix.mulVec_sub, huw, sub_self, Matrix.mulVec_zero]

lemma rhoList_getD (m : Mat) (j : ℕ) (hj : j < m.length) :
    (rhoList m).getD j 0 =
      listMinR ((List.range m.length).map (fun i =>
        distRow m i j + (if i = j then listMaxR (allDists m) else 0))) := by
  unfold rhoList
  exact getD_map_range m.length _ j hj 0

lemma distRow_mem_allDists (m : Mat) (i j : ℕ) (hi : i < m.length) (hj : j < m.length) :
    distRow m i j ∈ allDists m := by
  unfold allDists
  exact List.mem_flatMap.mpr
    ⟨i, List.mem_range.mpr hi, List.mem_map.mpr ⟨j, List.mem_range.mpr hj, rfl⟩⟩

lemma rhoList_nearest_distinct (m : Mat) (h2 : 2 ≤ m.length) (j : ℕ) (hj : j < m.length) :
    (rhoList m).getD j 0 =
      listMinR (((List.range m.length).filter (fun i => i ≠ j)).map (fun i => distRow m i j)) := by
  rw [rhoList_getD m j hj]
  have hi0 : ∃ i0, i0 < m.length ∧ i0 ≠ j := by
    by_cases hj0 : j = 0
    · exact ⟨1, by omega, by omega⟩
    · exact ⟨0, by omega, fun he => hj0 he.symm⟩
  obtain ⟨i0, hi0lt, hi0ne⟩ := hi0
  have hmem0 : distRow m i0 j ∈
      ((List.range m.length).filter (fun i => i ≠ j)).map (fun i => distRow m i j) :=
    List.mem_map.mpr ⟨i0, List.mem_filter.mpr ⟨List.mem_range.mpr hi0lt, by simp [hi0ne]⟩, rfl⟩
  have hL2ne := List.ne_nil_of_mem hmem0
  have hjmem : distRow m j j + (if j = j then listMaxR (allDists m) else 0) ∈
      (List.range m.length).map (fun i =>
        distRow m i j + (if i = j then listMaxR (allDists m) else 0)) :=
    List.mem_map.mpr ⟨j, List.mem_range.mpr hj, rfl⟩
  have hLne := List.ne_nil_of_mem hjmem
  apply le_antisymm
  · -- the inflated column minimum is at most every distinct-neighbor distance
    have hmin2 := listMinR_mem _ hL2ne
    obtain ⟨i1, hi1f, hi1e⟩ := List.mem_map.mp hmin2
    obtain ⟨hi1r, hi1ne⟩ := List.mem_filter.mp hi1f
    have : distRow m i1 j + (if i1 = j then listMaxR (allDists m) else 0) ∈
        (List.range m.length).map (fun i =>
          distRow m i j + (if i = j then listMaxR (allDists m) else 0)) :=
      List.mem_map.mpr ⟨i1, hi1r, rfl⟩
    have hle := listMinR_le _ _ this
    rw [← hi1e]
    simpa [show i1 ≠ j by simpa using hi1ne] using hle
  · -- the distinct-neighbor minimum is at most the inflated column minimum
    have hminL := listMinR_mem _ hLne
    obtain ⟨i1, hi1r, hi1e⟩ := List.mem_map.mp hminL
    by_cases hij : i1 = j
    · -- the minimum is attained at the inflated diagonal, equal to the max distance
      subst hij
      rw [← hi1e]
      simp only [if_pos rfl, distRow_self, zero_add]
      have hmin2 := listMinR_mem _ hL2ne
      obtain ⟨i2, hi2f, hi2e⟩ := List.mem_map.mp hmin2
      obtain ⟨hi2r, _⟩ := List.mem_filter.mp hi2f
      rw [← hi2e]
      exact le_listMaxR _ _
        (distRow_mem_allDists m i2 i1 (List.mem_range.mp hi2r) (List.mem_range.mp hi1r))
    · -- the minimum is a genuine distinct-neighbor distance
      have hmem : distRow m i1 j ∈
          ((List.range m.length).filter (fun i => i ≠ j)).map (fun i => distRow m i j) :=
        List.mem_map.mpr ⟨i1, List.mem_filter.mpr ⟨hi1r, by simp [hij]⟩, rfl⟩
      have hle := listMinR_le _ _ hmem
      rw [← hi1e]
      simpa [hij] using hle

lemma natProd_all_one (l : List ℕ) (h : l.prod = 1) : ∀ x ∈ l, x = 1 := by
  induction l with
  | nil => intro x hx; cases hx
  | cons a t ih =>
      rw [List.prod_cons] at h
      obtain ⟨ha, ht⟩ := mul_eq_one.mp h
      intro x hx
      rcases List.mem_cons.mp hx with hx | hx
      · exact hx.trans ha
      · exact ih ht x hx

lemma bcastRev_prod_one (xs : List ℕ) :
    ∀ (ys s : List ℕ), bcastRev xs ys = some s → s.prod = 1 →
      (∀ x ∈ xs, x = 1) ∧ (∀ y ∈ ys, y = 1) := by
  induction xs with
  | nil =>
      intro ys s hb hp
      simp only [bcastRev, Option.some.injEq] at hb
      subst hb
      exact ⟨fun x hx => absurd hx (List.not_mem_nil x), natProd_all_one _ hp⟩
  | cons x xt ih =>
      intro ys s hb hp
      cases ys with
      | nil =>
          simp only [bcastRev, Option.some.injEq] at hb
          subst hb
          exact ⟨natProd_all_one _ hp, fun y hy => absurd hy (List.not_mem_nil y)⟩
      | cons y yt =>
          simp only [bcastRev] at hb
          cases hbt : bcastRev xt yt with
          | none => rw [hbt] at hb; simp at hb
          | some t =>
              simp only [hbt] at hb
              by_cases hxy : x = y
              · rw [if_pos hxy, Option.some.injEq] at hb
                subst hb
                rw [List.prod_cons] at hp
                obtain ⟨hx1, ht1⟩ := mul_eq_one.mp hp
                obtain ⟨hxs, hys⟩ := ih yt t hbt ht1
                refine ⟨?_, ?_⟩
                · intro z hz
                  rcases List.mem_cons.mp hz with hz | hz
                  · exact hz.trans hx1
                  · exact hxs z hz
                · intro z hz
                  rcases List.mem_cons.mp hz with hz | hz
                  · exact hz.trans (hxy ▸ hx1)
                  · exact hys z hz
              · rw [if_neg hxy] at hb
                by_cases hx1 : x = 1
                · rw [if_pos hx1, Option.some.injEq] at hb
                  subst hb
                  rw [List.prod_cons] at hp
                  obtain ⟨hy1, ht1⟩ := mul_eq_one.mp hp
                  obtain ⟨hxs, hys⟩ := ih yt t hbt ht1
                  refine ⟨?_, ?_⟩
                  · intro z hz
                    rcases List.mem_cons.mp hz with hz | hz
                    · exact hz.trans hx1
                    · exact hxs z hz
                  · intro z hz
                    rcases List.mem_cons.mp hz with hz | hz
                    · exact hz.trans hy1
                    · exact hys z hz
                · rw [if_neg hx1] at hb
                  by_cases hy1 : y = 1
                  · rw [if_pos hy1, Option.some.injEq] at hb
                    subst hb
                    rw [List.prod_cons] at hp
                    obtain ⟨hx1', ht1⟩ := mul_eq_one.mp hp
                    exact absurd hx1' hx1
                  · rw [if_neg hy1] at hb
                    cases hb

lemma npTupleSum_never_ok (h : NDArr) (edges : List (List ℚ)) (t : ℚ) (b : Bool)
    (hsh : h.shape = edges.map (fun es => es.length - 1)) :
    npTupleSum h edges t ≠ .ok b := by
  intro hok
  unfold npTupleSum at hok
  cases edges with
  | nil =>
      rw [hsh] at hok
      simp [broadcastShape, bcastRev] at hok
  | cons e0 rest =>
      dsimp only at hok
      by_cases hall : (e0 :: rest).all (fun es => es.length = e0.length) = true
      · rw [if_pos hall] at hok
        cases hbc : broadcastShape h.shape [(e0 :: rest).length, e0.length] with
        | none => rw [hbc] at hok; simp at hok
        | some s =>
            simp only [hbc] at hok
            by_cases hp : s.prod = 1
            · unfold broadcastShape at hbc
              cases hbr : bcastRev h.shape.reverse [(e0 :: rest).length, e0.length].reverse with
              | none => rw [hbr] at hbc; simp at hbc
              | some s2 =>
                  rw [hbr] at hbc
                  simp only [Option.map_some', Option.some.injEq] at hbc
                  have hp2 : s2.prod = 1 := by
                    rw [← List.prod_reverse, hbc, hp]
                  obtain ⟨hxs, hys⟩ := bcastRev_prod_one _ _ _ hbr hp2
                  have hD : (e0 :: rest).length = 1 := hys _ (by simp)
                  have he : e0.length = 1 := hys _ (by simp)
                  have hrest : rest = [] := by
                    rw [List.length_cons] at hD
                    exact List.length_eq_zero.mp (by omega)
                  subst hrest
                  rw [hsh] at hxs
                  have h01 : e0.length - 1 = 1 := hxs _ (by simp)
                  omega
            · rw [if_neg hp] at hok
              simp at hok
      · rw [if_neg hall] at hok
        simp at hok

lemma histogramdd_ok_shape (m : Mat) (bs : List BinSpec) (h : NDArr) (edges : List (List ℚ))
    (hh : histogramdd m bs = .ok (h, edges)) :
    h.shape = edges.map (fun es => es.length - 1) := by
  unfold histogramdd at hh
  cases hr : resolveBins m 0 bs with
  | error e => rw [hr] at hh; simp at hh
  | ok es =>
      rw [hr] at hh
      simp only [Except.ok.injEq, Prod.mk.injEq] at hh
      obtain ⟨h1, h2⟩ := hh
      subst h2
      rw [← h1]

lemma symbols_to_prob_never_ok (d : NDArray) (bins : Option (List BinSpec)) (t : ℚ)
    (v : NDArr × List (List ℚ)) : symbols_to_prob d bins t ≠ .ok v := by
  intro hok
  cases d with
  | arr1 w => simp [symbols_to_prob] at hok
  | arr2 m =>
      cases bins with
      | none => simp [symbols_to_prob] at hok
      | some bs =>
          simp only [symbols_to_prob] at hok
          by_cases hlen : bs.length ≠ widthM m
          · rw [if_pos hlen] at hok; simp at hok
          · rw [if_neg hlen] at hok
            cases hh : histogramdd m bs with
            | error e => rw [hh] at hok; simp at hok
            | ok pr =>
                obtain ⟨h, edges⟩ := pr
                rw [hh] at hok
                dsimp only at hok
                cases hts : npTupleSum h edges t with
                | error e => rw [hts] at hok; simp at hok
                | ok tf =>
                    exact npTupleSum_never_ok h edges t tf
                      (histogramdd_ok_shape m bs h edges hh) hts

lemma concatCols_ok (a b xy : Mat) (h : concatCols a b = .ok xy) :
    a.length = b.length ∧ xy = List.zipWith (· ++ ·) a b := by
  unfold concatCols at h
  by_cases hl : a.length = b.length
  · rw [if_pos hl] at h
    simp only [Except.ok.injEq] at h
    exact ⟨hl, h.symm⟩
  · rw [if_neg hl] at h
    simp at h

lemma mi_ok_inversion (x y : NDArray) (bX bY bXY : Option (List BinSpec)) (method : String)
    (a : PyVal) (h : mi x y bX bY bXY method = .ok a) :
    ∃ vx vy vxy s,
      entropy (some (.arr2 (reshapeCol x))) none method bX (1 / 100000) = .ok vx ∧
      entropy (some (.arr2 (reshapeCol y))) none method bY (1 / 100000) = .ok vy ∧
      (reshapeCol x).length = (reshapeCol y).length ∧
      entropy (some (.arr2 (List.zipWith (· ++ ·) (reshapeCol x) (reshapeCol y)))) none method
        bXY (1 / 100000) = .ok vxy ∧
      pyAdd vx vy = .ok s ∧ pySub s vxy = .ok a := by
  simp only [mi] at h
  cases hh1 : entropy (some (.arr2 (reshapeCol x))) none method bX (1 / 100000) with
  | error e => simp only [hh1] at h; simp at h
  | ok vx =>
      simp only [hh1] at h
      cases hh2 : entropy (some (.arr2 (reshapeCol y))) none method bY (1 / 100000) with
      | error e => simp only [hh2] at h; simp at h
      | ok vy =>
          simp only [hh2] at h
          cases hh3 : concatCols (reshapeCol x) (reshapeCol y) with
          | error e => simp only [hh3] at h; simp at h
          | ok xy =>
              simp only [hh3] at h
              obtain ⟨hlen, hxy⟩ := concatCols_ok _ _ _ hh3
              subst hxy
              cases hh4 : entropy
                  (some (.arr2 (List.zipWith (· ++ ·) (reshapeCol x) (reshapeCol y)))) none
                  method bXY (1 / 100000) with
              | error e => simp only [hh4] at h; simp at h
              | ok vxy =>
                  simp only [hh4] at h
                  cases hh5 : pyAdd vx vy with
                  | error e => simp only [hh5] at h; simp at h
                  | ok s =>
                      simp only [hh5] at h
                      exact ⟨vx, vy, vxy, s, rfl, rfl, hlen, rfl, hh5, h⟩

lemma entropy_nn_ok (m : Mat) (bins : Option (List BinSpec)) (ev : ℚ) (v : PyVal)
    (h : entropy (some (.arr2 m)) none "nearest-neighbors" bins ev = .ok v) :
    npAnyM m = true ∧
      v = (if 0 ∈ rhoList m then PyVal.negInf
        else .num (nnVal m.length (widthM m) (rhoList m))) := by
  rw [entropy_some_eq] at h
  cases hA : npAnyM m
  · rw [entropyData_nn_unbound m hA bins] at h
    simp at h
  · rw [entropyData_nn_any m hA bins] at h
    refine ⟨rfl, ?_⟩
    by_cases h0 : 0 ∈ rhoList m
    · rw [if_pos h0] at h ⊢
      simp only [Except.ok.injEq] at h
      exact h.symm
    · rw [if_neg h0] at h ⊢
      simp only [Except.ok.injEq] at h
      exact h.symm

lemma entropy_gauss_ok (m : Mat) (bins : Option (List BinSpec)) (ev : ℚ) (v : PyVal)
    (h : entropy (some (.arr2 m)) none "gaussian" bins ev = .ok v) :
    npAnyM m = true ∧
      v = (if gramDet m = 0 then PyVal.negInf
        else .num (gaussVal (widthM m) (gramDet m))) := by
  rw [entropy_some_eq] at h
  cases hA : npAnyM m
  · rw [entropyData_gauss_unbound m hA bins] at h
    simp at h
  · rw [entropyData_gauss_any m hA bins] at h
    refine ⟨rfl, ?_⟩
    by_cases hdet : gramDet m = 0
    · rw [if_pos hdet] at h ⊢
      simp only [Except.ok.injEq] at h
      exact h.symm
    · rw [if_neg hdet] at h ⊢
      simp only [Except.ok.injEq] at h
      exact h.symm

/-! Claim theorems. -/

/-- C1: entropy(prob=np.array([0.5, 0.5]), method="bin") is claimed to
return 1.0 via the -sum(p*log2(p)) computation with the 0*log2(0)
convention.  In fact every prob-only call crashes: line 52 evaluates
data.any() with data = None, raising AttributeError before the bin branch
is reached.  The second conjunct records that the discrete-entropy
computation of lines 109-115, applied to the supplied distribution as the
docstring intends, does yield exactly 1. -/
theorem c1_bin_prob_path_crashes :
    entropy none (some [1 / 2, 1 / 2]) "bin" none (1 / 100000) =
      .error .attributeErrorNoneAny ∧
    binEntropy [1 / 2, 1 / 2] = 1 := by
  constructor
  · simp [entropy]
    norm_num
  · have hl : Real.logb 2 ((1 : ℝ) / 2) = -1 := by
      rw [one_div, Real.logb_inv, Real.logb_self_eq_one (by norm_num)]
    simp only [binEntropy, log2R, List.map_cons, List.map_nil, List.sum_cons, List.sum_nil]
    norm_num [hl]

/-- C4: symbols_to_prob is claimed to return a probability distribution
summing to 1 within tol and to raise NormalizationError otherwise.  In
fact it never returns: np.histogramdd gives a (histogram, edges) tuple, so
the line 138 check sum(prob) adds the histogram array to np.array(edges),
which fails for every input (broadcast failure, ragged edge arrays, or an
ambiguous multi-element truth value).  At the concrete input of shape
(2, 1) with edges [0, 0.5, 1] the failure is the numpy broadcast error of
adding shapes (2,) and (1, 3); the second conjunct shows no input ever
produces a return value. -/
theorem c4_symbols_to_prob_never_returns :
    symbols_to_prob (.arr2 [[0], [1]]) (some [.edgesGiven [0, 1 / 2, 1]]) (1 / 10000) =
      .error .numpyBroadcastError ∧
    ∀ (d : NDArray) (bins : Option (List BinSpec)) (tol : ℚ),
      ∃ e, symbols_to_prob d bins tol = .error e := by
  refine ⟨rfl, fun d bins tol => ?_⟩
  cases hr : symbols_to_prob d bins tol with
  | error e => exact ⟨e, rfl⟩
  | ok v => exact absurd hr (symbols_to_prob_never_ok d bins tol v)

/-- C7 counterexample: entropy with the unrecognized method "foo" and
valid data does not fail with any error; the method dispatch falls through
and Python returns None. -/
theorem c7_unknown_method_counterexample :
    entropy (some (.arr2 [[1]])) none "foo" none (1 / 100000) = .ok .pyNone := by
  simp [entropy, entropyData]

/-- C7 (amended): for every method tag other than "nearest-neighbors",
"gaussian" and "bin", entropy with data supplied returns Python None (the
implicit fall-through return) instead of failing with UnsupportedMethod. -/
theorem c7_unknown_method_returns_none (d : NDArray) (bins : Option (List BinSpec))
    (ev : ℚ) (method : String) (h1 : method ≠ "nearest-neighbors")
    (h2 : method ≠ "gaussian") (h3 : method ≠ "bin") :
    entropy (some d) none method bins ev = .ok .pyNone := by
  rw [entropy_some_eq]
  exact entropyData_other d bins method h1 h2 h3

/-- C7 witness: the amended claim applied to the method tag "foo". -/
theorem c7_unknown_method_returns_none_witness :
    ("foo" ≠ "nearest-neighbors" ∧ "foo" ≠ "gaussian" ∧ "foo" ≠ "bin") ∧
      entropy (some (.arr2 [[2]])) none "foo" none 1 = .ok .pyNone :=
  ⟨⟨by decide, by decide, by decide⟩,
    c7_unknown_method_returns_none (.arr2 [[2]]) none 1 "foo"
      (by decide) (by decide) (by decide)⟩

/-- C8: entropy fails with the InvalidArgument ValueError of line 40 when
neither data nor prob is given, and with the InvalidArgument ValueError of
line 43 when both are given, for every method, bins and tolerance. -/
theorem c8_data_prob_exclusivity (method : String) (bins : Option (List BinSpec)) (ev : ℚ) :
    entropy none none method bins ev = .error .invalidArgumentNeither ∧
    ∀ (d : NDArray) (p : List ℚ),
      entropy (some d) (some p) method bins ev = .error .invalidArgumentBoth :=
  ⟨rfl, fun _ _ => rfl⟩

/-- C2 counterexample: the all-zero 1-by-1 sample matrix has shape (N, D)
with N = 1, yet nearest-neighbors entropy raises NameError instead of
returning the estimator formula: data.any() is false, so num_dimensions is
never bound and line 78 uses an unbound local. -/
theorem c2_zero_matrix_errors :
    entropy (some (.arr2 [[0]])) none "nearest-neighbors" none (1 / 100000) =
      .error .nameErrorUnbound := by
  rfl

/-- C3 counterexample: the all-zero 1-by-1 sample matrix has singular
covariance (determinant 0), yet gaussian entropy raises NameError instead
of returning negative infinity: data.any() is false, so num_dimensions is
unbound when line 95 computes the normalization constant. -/
theorem c3_zero_matrix_errors :
    entropy (some (.arr2 [[0]])) none "gaussian" none (1 / 100000) =
      .error .nameErrorUnbound := by
  rfl

/-- C10 counterexample: the all-zero 2-by-1 sample matrix has N > D, yet
gaussian entropy raises NameError rather than returning negative
infinity, again because data.any() is false and num_dimensions is never
bound. -/
theorem c10_zero_matrix_errors :
    entropy (some (.arr2 [[0], [0]])) none "gaussian" none (1 / 100000) =
      .error .nameErrorUnbound := by
  rfl

/-- C2 (amended): for every rectangular sample matrix of shape (N, D) with
N >= 1 and at least one nonzero entry, nearest-neighbors entropy returns
k*mean(log2(rho)) + log2(N*A_k/k) + log2(e)*euler_gamma with k = D and rho
produced by inflating the diagonal of the pairwise-distance matrix by the
maximum observed distance before taking the minimum along each column,
reading the formula with np.log2 semantics: when every entry of rho is
positive the returned float is the finite value of the formula, and when
some entry of rho is 0 (a lone sample, or duplicate rows) np.log2 makes
the formula evaluate to the float -inf, which is what is returned.
Whenever N >= 2, entry j of rho is exactly the Euclidean distance from
point j to its nearest distinct neighbor. -/
theorem c2_nearest_neighbors_formula (m : Mat) (bins : Option (List BinSpec)) (ev : ℚ)
    (_hR : RectM m) (hA : npAnyM m = true) :
    (0 ∈ rhoList m →
      entropy (some (.arr2 m)) none "nearest-neighbors" bins ev = .ok .negInf) ∧
    (0 ∉ rhoList m →
      entropy (some (.arr2 m)) none "nearest-neighbors" bins ev =
        .ok (.num (nnVal m.length (widthM m) (rhoList m)))) ∧
    (2 ≤ m.length → ∀ j, j < m.length →
      (rhoList m).getD j 0 =
        listMinR (((List.range m.length).filter (fun i => i ≠ j)).map
          (fun i => distRow m i j))) := by
  refine ⟨?_, ?_, ?_⟩
  · intro h0
    rw [entropy_some_eq, entropyData_nn_any m hA bins, if_pos h0]
  · intro h0
    rw [entropy_some_eq, entropyData_nn_any m hA bins, if_neg h0]
  · intro h2 j hj
    exact rhoList_nearest_distinct m h2 j hj

/-- C2 witness: the amended claim applied to the 2-by-1 matrix with rows 0
and 1, whose nearest-neighbor distances are [1, 1] (the finite case, with
the nearest-distinct-neighbor characterization instantiated at the first
point), and to the duplicate-row matrix [[1], [1]], whose nearest-neighbor
distances are [0, 0] (the -inf case). -/
theorem c2_nearest_neighbors_formula_witness :
    RectM [[0], [1]] ∧ npAnyM [[0], [1]] = true ∧ 0 ∉ rhoList [[0], [1]] ∧
    entropy (some (.arr2 [[0], [1]])) none "nearest-neighbors" none 1 =
      .ok (.num (nnVal 2 1 (rhoList [[0], [1]]))) ∧
    (rhoList [[0], [1]]).getD 0 0 =
      listMinR (((List.range 2).filter (fun i => i ≠ 0)).map
        (fun i => distRow [[0], [1]] i 0)) ∧
    RectM [[1], [1]] ∧ npAnyM [[1], [1]] = true ∧ 0 ∈ rhoList [[1], [1]] ∧
    entropy (some (.arr2 [[1], [1]])) none "nearest-neighbors" none 1 = .ok .negInf := by
  have hR : RectM [[0], [1]] := by decide
  have hA : npAnyM [[0], [1]] = true := by decide
  have hrho1 : rhoList [[0], [1]] = [1, 1] := by
    have hd : sqDistQ [0] (1 :: List.nil) = 1 := by
      simp [sqDistQ]
    have hd2 : sqDistQ (1 :: List.nil) [0] = 1 := by
      simp [sqDistQ]
    simp [rhoList, allDists, distRow, euclidD, sqDistQ_self, listMinR, listMaxR,
      List.range_succ, hd, hd2]
  have hnz : 0 ∉ rhoList [[0], [1]] := by
    rw [hrho1]
    norm_num
  have hR2 : RectM [[1], [1]] := by decide
  have hA2 : npAnyM [[1], [1]] = true := by decide
  have hrho2 : rhoList [[1], [1]] = [0, 0] := by
    simp [rhoList, allDists, distRow, euclidD, sqDistQ_self, listMinR, listMaxR,
      List.range_succ]
  have hz : 0 ∈ rhoList [[1], [1]] := by
    rw [hrho2]
    norm_num
  have h := c2_nearest_neighbors_formula [[0], [1]] none 1 hR hA
  have h2 := c2_nearest_neighbors_formula [[1], [1]] none 1 hR2 hA2
  exact ⟨hR, hA, hnz, h.2.1 hnz, h.2.2 (by norm_num) 0 (by norm_num),
    hR2, hA2, hz, h2.1 hz⟩

/-- C3 (amended): for every rectangular sample matrix with at least one
nonzero entry, gaussian entropy returns exactly negative infinity when the
determinant of data.dot(data.transpose()) is 0, and otherwise returns
0.5*ln((2*pi*e)^D * det) with D the number of columns. -/
theorem c3_gaussian_formula (m : Mat) (bins : Option (List BinSpec)) (ev : ℚ)
    (_hR : RectM m) (hA : npAnyM m = true) :
    (gramDet m = 0 → entropy (some (.arr2 m)) none "gaussian" bins ev = .ok .negInf) ∧
    (gramDet m ≠ 0 →
      entropy (some (.arr2 m)) none "gaussian" bins ev =
        .ok (.num (gaussVal (widthM m) (gramDet m)))) := by
  constructor
  · intro h0
    rw [entropy_some_eq, entropyData_gauss_any m hA bins, if_pos h0]
  · intro h0
    rw [entropy_some_eq, entropyData_gauss_any m hA bins, if_neg h0]

/-- C3 witness: the amended claim applied to the 1-by-1 matrix [[1]],
whose Gram determinant is 1. -/
theorem c3_gaussian_formula_witness :
    RectM [[1]] ∧ npAnyM [[1]] = true ∧ gramDet [[1]] ≠ 0 ∧
    entropy (some (.arr2 [[1]])) none "gaussian" none 1 =
      .ok (.num (gaussVal 1 (gramDet [[1]]))) := by
  have hR : RectM [[1]] := by decide
  have hA : npAnyM [[1]] = true := by decide
  have hdet : gramDet [[1]] ≠ 0 := by simp [gramDet_one, dotQ]
  exact ⟨hR, hA, hdet, (c3_gaussian_formula [[1]] none 1 hR hA).2 hdet⟩

/-- C10 (amended): for every rectangular sample matrix with at least one
nonzero entry and strictly more samples than dimensions, gaussian entropy
returns negative infinity under exact arithmetic, because the N-by-N Gram
matrix data.dot(data.transpose()) has rank at most D and is therefore
singular. -/
theorem c10_gaussian_gram_singular (m : Mat) (bins : Option (List BinSpec)) (ev : ℚ)
    (hR : RectM m) (hA : npAnyM m = true) (hlt : widthM m < m.length) :
    entropy (some (.arr2 m)) none "gaussian" bins ev = .ok .negInf := by
  rw [entropy_some_eq, entropyData_gauss_any m hA bins,
    if_pos (gramDet_eq_zero_of_width_lt m hR hlt)]

/-- C10 witness: the amended claim applied to the 2-by-1 matrix with two
identical nonzero rows. -/
theorem c10_gaussian_gram_singular_witness :
    RectM [[1], [1]] ∧ npAnyM [[1], [1]] = true ∧ widthM [[1], [1]] < 2 ∧
    entropy (some (.arr2 [[1], [1]])) none "gaussian" none 1 = .ok .negInf := by
  have hR : RectM [[1], [1]] := by decide
  have hA : npAnyM [[1], [1]] = true := by decide
  exact ⟨hR, hA, by decide, c10_gaussian_gram_singular [[1], [1]] none 1 hR hA (by decide)⟩

/-- C5: mi normalizes one-dimensional inputs to single-column matrices,
computes H(X) with bins_x, H(Y) with bins_y and H(X,Y) on the column-wise
concatenation with bins_xy, all under the same method, and returns
H(X) + H(Y) - H(X,Y): whenever the three entropy calls return floats, mi
returns their composition. -/
theorem c5_mi_composition (x y : NDArray) (binsX binsY binsXY : Option (List BinSpec))
    (method : String) (hx hy hxy : ℝ) (xy : Mat)
    (h1 : entropy (some (.arr2 (reshapeCol x))) none method binsX (1 / 100000) =
      .ok (.num hx))
    (h2 : entropy (some (.arr2 (reshapeCol y))) none method binsY (1 / 100000) =
      .ok (.num hy))
    (h3 : concatCols (reshapeCol x) (reshapeCol y) = .ok xy)
    (h4 : entropy (some (.arr2 xy)) none method binsXY (1 / 100000) = .ok (.num hxy)) :
    mi x y binsX binsY binsXY method = .ok (.num (hx + hy - hxy)) := by
  simp only [mi, h1, h2, h3, h4, pyAdd, pySub]

/-- C5 witness: the claim applied to the 1-by-1 matrices [[1]] and [[3]]
under the gaussian method. -/
theorem c5_mi_composition_witness :
    entropy (some (.arr2 [[1]])) none "gaussian" none (1 / 100000) =
      .ok (.num (gaussVal 1 (gramDet [[1]]))) ∧
    entropy (some (.arr2 [[3]])) none "gaussian" none (1 / 100000) =
      .ok (.num (gaussVal 1 (gramDet [[3]]))) ∧
    concatCols [[1]] [[3]] = .ok [[1, 3]] ∧
    entropy (some (.arr2 [[1, 3]])) none "gaussian" none (1 / 100000) =
      .ok (.num (gaussVal 2 (gramDet [[1, 3]]))) ∧
    mi (.arr2 [[1]]) (.arr2 [[3]]) none none none "gaussian" =
      .ok (.num (gaussVal 1 (gramDet [[1]]) + gaussVal 1 (gramDet [[3]]) -
        gaussVal 2 (gramDet [[1, 3]]))) := by
  have p1 : entropy (some (.arr2 [[1]])) none "gaussian" none (1 / 100000) =
      .ok (.num (gaussVal 1 (gramDet [[1]]))) := by
    rw [entropy_some_eq, entropyData_gauss_any [[1]] (by decide) none,
      if_neg (show gramDet [[1]] ≠ 0 by norm_num [gramDet_one, dotQ])]
    rfl
  have p2 : entropy (some (.arr2 [[3]])) none "gaussian" none (1 / 100000) =
      .ok (.num (gaussVal 1 (gramDet [[3]]))) := by
    rw [entropy_some_eq, entropyData_gauss_any [[3]] (by decide) none,
      if_neg (show gramDet [[3]] ≠ 0 by norm_num [gramDet_one, dotQ])]
    rfl
  have p3 : concatCols [[1]] [[3]] = .ok ([[1, 3]] : Mat) := by rfl
  have p4 : entropy (some (.arr2 [[1, 3]])) none "gaussian" none (1 / 100000) =
      .ok (.num (gaussVal 2 (gramDet [[1, 3]]))) := by
    rw [entropy_some_eq, entropyData_gauss_any [[1, 3]] (by decide) none,
      if_neg (show gramDet [[1, 3]] ≠ 0 by norm_num [gramDet_one, dotQ])]
    rfl
  exact ⟨p1, p2, p3, p4,
    c5_mi_composition (.arr2 [[1]]) (.arr2 [[3]]) none none none "gaussian"
      (gaussVal 1 (gramDet [[1]])) (gaussVal 1 (gramDet [[3]]))
      (gaussVal 2 (gramDet [[1, 3]])) [[1, 3]] p1 p2 p3 p4⟩

/-- C6: cond_entropy computes H(X,Y) on the concatenation of x and y with
bins_xy and H(Y) on y with bins_y under the same method, and returns
H(X,Y) - H(Y): whenever the concatenation succeeds and the two entropy
calls return floats, cond_entropy returns their difference. -/
theorem c6_cond_entropy_composition (x y : NDArray) (binsY binsXY : Option (List BinSpec))
    (method : String) (hxy hy : ℝ) (xy : Mat)
    (h1 : concatNd x y = .ok xy)
    (h2 : entropy (some (.arr2 xy)) none method binsXY (1 / 100000) = .ok (.num hxy))
    (h3 : entropy (some y) none method binsY (1 / 100000) = .ok (.num hy)) :
    cond_entropy x y binsY binsXY method = .ok (.num (hxy - hy)) := by
  simp only [cond_entropy, h1, h2, h3, pySub]

/-- C6 witness: the claim applied to the 1-by-1 matrices [[2]] and [[5]]
under the gaussian method. -/
theorem c6_cond_entropy_composition_witness :
    concatNd (.arr2 [[2]]) (.arr2 [[5]]) = .ok [[2, 5]] ∧
    entropy (some (.arr2 [[2, 5]])) none "gaussian" none (1 / 100000) =
      .ok (.num (gaussVal 2 (gramDet [[2, 5]]))) ∧
    entropy (some (.arr2 [[5]])) none "gaussian" none (1 / 100000) =
      .ok (.num (gaussVal 1 (gramDet [[5]]))) ∧
    cond_entropy (.arr2 [[2]]) (.arr2 [[5]]) none none "gaussian" =
      .ok (.num (gaussVal 2 (gramDet [[2, 5]]) - gaussVal 1 (gramDet [[5]]))) := by
  have p1 : concatNd (.arr2 [[2]]) (.arr2 [[5]]) = .ok ([[2, 5]] : Mat) := by rfl
  have p2 : entropy (some (.arr2 [[2, 5]])) none "gaussian" none (1 / 100000) =
      .ok (.num (gaussVal 2 (gramDet [[2, 5]]))) := by
    rw [entropy_some_eq, entropyData_gauss_any [[2, 5]] (by decide) none,
      if_neg (show gramDet [[2, 5]] ≠ 0 by norm_num [gramDet_one, dotQ])]
    rfl
  have p3 : entropy (some (.arr2 [[5]])) none "gaussian" none (1 / 100000) =
      .ok (.num (gaussVal 1 (gramDet [[5]]))) := by
    rw [entropy_some_eq, entropyData_gauss_any [[5]] (by decide) none,
      if_neg (show gramDet [[5]] ≠ 0 by norm_num [gramDet_one, dotQ])]
    rfl
  exact ⟨p1, p2, p3,
    c6_cond_entropy_composition (.arr2 [[2]]) (.arr2 [[5]]) none none "gaussian"
      (gaussVal 2 (gramDet [[2, 5]])) (gaussVal 1 (gramDet [[5]])) [[2, 5]] p1 p2 p3⟩

/-- C9: mutual information is symmetric.  For every method and all
rectangular inputs, whenever mi(x, y) and mi(y, x) (with the x and y bin
specifications exchanged) both return a value, the two values are equal:
the individual entropies swap roles, and the joint entropy is invariant
under swapping the concatenation order, since pairwise Euclidean distances
and the Gram matrix are invariant under column permutation.  (Under the
bin method mi never returns a value, since symbols_to_prob always fails.) -/
theorem c9_mi_symmetric (x y : NDArray) (binsX binsY binsXY : Option (List BinSpec))
    (method : String) (a b : PyVal)
    (hRx : RectM (reshapeCol x)) (hRy : RectM (reshapeCol y))
    (h1 : mi x y binsX binsY binsXY method = .ok a)
    (h2 : mi y x binsY binsX binsXY method = .ok b) : a = b := by
  obtain ⟨vx, vy, vxy, s, e1, e2, elen, e4, e5, e6⟩ :=
    mi_ok_inversion x y binsX binsY binsXY method a h1
  obtain ⟨wx, wy, wxy, t, f1, f2, flen, f4, f5, f6⟩ :=
    mi_ok_inversion y x binsY binsX binsXY method b h2
  have hwx : wx = vy := by
    rw [e2] at f1
    injection f1 with hv
    exact hv.symm
  have hwy : wy = vx := by
    rw [e1] at f2
    injection f2 with hv
    exact hv.symm
  have hvxy : wxy = vxy := by
    by_cases hbin : method = "bin"
    · exfalso
      subst hbin
      obtain ⟨e, he⟩ := entropyData_bin_err (.arr2 (reshapeCol x)) binsX
      rw [entropy_some_eq, he] at e1
      simp at e1
    · by_cases hnn : method = "nearest-neighbors"
      · subst hnn
        obtain ⟨hAx, _⟩ := entropy_nn_ok _ binsX _ vx e1
        obtain ⟨hAy, _⟩ := entropy_nn_ok _ binsY _ vy e2
        obtain ⟨_, hv⟩ := entropy_nn_ok _ binsXY _ vxy e4
        obtain ⟨_, hv'⟩ := entropy_nn_ok _ binsXY _ wxy f4
        have hnex := npAnyM_ne_nil _ hAx
        have hney := npAnyM_ne_nil _ hAy
        have hw : widthM (List.zipWith (· ++ ·) (reshapeCol y) (reshapeCol x)) =
            widthM (List.zipWith (· ++ ·) (reshapeCol x) (reshapeCol y)) := by
          rw [widthM_concat _ _ hney hnex, widthM_concat _ _ hnex hney, Nat.add_comm]
        rw [hv, hv', length_concat_comm (reshapeCol y) (reshapeCol x), hw,
          rhoList_concat_swap (reshapeCol y) (reshapeCol x) hRy hRx elen.symm]
      · by_cases hg : method = "gaussian"
        · subst hg
          obtain ⟨hAx, _⟩ := entropy_gauss_ok _ binsX _ vx e1
          obtain ⟨hAy, _⟩ := entropy_gauss_ok _ binsY _ vy e2
          obtain ⟨_, hv⟩ := entropy_gauss_ok _ binsXY _ vxy e4
          obtain ⟨_, hv'⟩ := entropy_gauss_ok _ binsXY _ wxy f4
          have hnex := npAnyM_ne_nil _ hAx
          have hney := npAnyM_ne_nil _ hAy
          have hw : widthM (List.zipWith (· ++ ·) (reshapeCol y) (reshapeCol x)) =
              widthM (List.zipWith (· ++ ·) (reshapeCol x) (reshapeCol y)) := by
            rw [widthM_concat _ _ hney hnex, widthM_concat _ _ hnex hney, Nat.add_comm]
          rw [hv, hv', gramDet_concat_swap (reshapeCol y) (reshapeCol x) hRy hRx elen.symm, hw]
        · exfalso
          rw [entropy_some_eq, entropyData_other _ binsX method hnn hg hbin] at e1
          rw [entropy_some_eq, entropyData_other _ binsY method hnn hg hbin] at e2
          injection e1 with he1
          injection e2 with he2
          rw [← he1, ← he2] at e5
          simp [pyAdd] at e5
  rw [hwx, hwy] at f5
  rw [hvxy] at f6
  rw [pyAdd_comm vy vx, e5] at f5
  injection f5 with hst
  subst hst
  rw [e6] at f6
  injection f6

/-- C9 witness: the symmetry claim applied to the 1-by-1 matrices [[1]]
and [[2]] under the gaussian method, where both orders of mi return a
value. -/
theorem c9_mi_symmetric_witness :
    RectM [[1]] ∧ RectM [[2]] ∧
    mi (.arr2 [[1]]) (.arr2 [[2]]) none none none "gaussian" =
      .ok (.num (gaussVal 1 (gramDet [[1]]) + gaussVal 1 (gramDet [[2]]) -
        gaussVal 2 (gramDet [[1, 2]]))) ∧
    mi (.arr2 [[2]]) (.arr2 [[1]]) none none none "gaussian" =
      .ok (.num (gaussVal 1 (gramDet [[2]]) + gaussVal 1 (gramDet [[1]]) -
        gaussVal 2 (gramDet [[2, 1]]))) ∧
    PyVal.num (gaussVal 1 (gramDet [[1]]) + gaussVal 1 (gramDet [[2]]) -
        gaussVal 2 (gramDet [[1, 2]])) =
      PyVal.num (gaussVal 1 (gramDet [[2]]) + gaussVal 1 (gramDet [[1]]) -
        gaussVal 2 (gramDet [[2, 1]])) := by
  have p1 : mi (.arr2 [[1]]) (.arr2 [[2]]) none none none "gaussian" =
      .ok (.num (gaussVal 1 (gramDet [[1]]) + gaussVal 1 (gramDet [[2]]) -
        gaussVal 2 (gramDet [[1, 2]]))) := by
    simp [mi, reshapeCol, entropy, entropyData, npAny, npAnyM, npAnyRow, numSamplesOf,
      numDimsOf, widthM, gramDet_one, gramDet_two, dotQ, concatCols, pyAdd, pySub]
    norm_num
  have p2 : mi (.arr2 [[2]]) (.arr2 [[1]]) none none none "gaussian" =
      .ok (.num (gaussVal 1 (gramDet [[2]]) + gaussVal 1 (gramDet [[1]]) -
        gaussVal 2 (gramDet [[2, 1]]))) := by
    simp [mi, reshapeCol, entropy, entropyData, npAny, npAnyM, npAnyRow, numSamplesOf,
      numDimsOf, widthM, gramDet_one, gramDet_two, dotQ, concatCols, pyAdd, pySub]
    norm_num
  exact ⟨by decide, by decide, p1, p2,
    c9_mi_symmetric (.arr2 [[1]]) (.arr2 [[2]]) none none none "gaussian" _ _
      (by decide) (by decide) p1 p2⟩

end Shannon
